import Mathlib

/-!
Verification of the sheet-name collision resolver and merge sequencing of
challengekim/excelmerger (src/src/App.tsx), via a shallow embedding.

Strings are modelled as `List Char` (JS strings are sequences of UTF-16 code
units; every string manipulated here stays well within the BMP, where the two
agree).  JS numbers are IEEE-754 doubles; the only arithmetic the source
performs on them is `counter++` starting from 1 and `31 - suffix.length`.
For integer values below 2^53 a double increment is exact, and at 2^53 the
increment `x + 1` rounds back to `x` (2^53 + 1 is not representable), so the
counter is modelled as a `Nat` with a saturating increment `jsIncr`.
`String.prototype.slice(0, e)` clamps a negative `e` to `max(length + e, 0)`,
which `jsSlice0` reproduces with `Int` arithmetic.
-/

namespace ExcelMerger

/-- JS strings are modelled as lists of characters. -/
abbrev JSStr := List Char

/-- Convenience conversion from Lean string literals. -/
def jstr (s : String) : JSStr := s.toList

/-- Model of `s.endsWith(t)` for JS strings. -/
def jsEndsWith (s t : JSStr) : Bool := List.isSuffixOf t s

/-- Model of `s.slice(0, e)` for JS strings: a negative end index counts from
the end of the string, clamped at 0. -/
def jsSlice0 (s : JSStr) (e : Int) : JSStr :=
  if e < 0 then s.take ((s.length : Int) + e).toNat else s.take e.toNat

/-- Smallest IEEE-754 double that is a fixed point of increment: 2^53.
The loop counter in `mergeAndDownload` is a JS number, so `counter++`
stops changing once the counter reaches this value. -/
def BIG : Nat := 9007199254740992

/-- Model of `counter++` on a JS number holding an integer: exact below 2^53,
a no-op at 2^53 (the counter can never exceed it starting from 1). -/
def jsIncr (n : Nat) : Nat := if n < BIG then n + 1 else n

/-- Decimal digit to character, as used by JS number-to-string conversion. -/
def digitChar (d : Nat) : Char :=
  match d with
  | 0 => '0' | 1 => '1' | 2 => '2' | 3 => '3' | 4 => '4'
  | 5 => '5' | 6 => '6' | 7 => '7' | 8 => '8' | _ => '9'

/-- Fuel-driven core of decimal printing (structural, so it evaluates in the
kernel). -/
def natDigitsAux : Nat → Nat → List Char
  | 0, _ => []
  | fuel+1, n =>
    if n < 10 then [digitChar n]
    else natDigitsAux fuel (n / 10) ++ [digitChar (n % 10)]

/-- Decimal representation of a natural number, as produced by the JS
template literal for an integer-valued number below 2^53. -/
def natDigits (n : Nat) : List Char := natDigitsAux (n + 1) n

/-- Model of the template literal `` `_${counter}` `` in the collision loop. -/
def sfx (k : Nat) : JSStr := '_' :: natDigits k

/-- Model of one candidate computed by the collision loop body:
`uploadedFile.sheetName.slice(0, 31 - suffix.length) + suffix`. -/
def candidate (s : JSStr) (k : Nat) : JSStr :=
  jsSlice0 s ((31 : Int) - (sfx k).length) ++ sfx k

/-- Lowercasing of one character, as done by a case-insensitive regex match
(ASCII letters only, which covers the extensions involved). -/
def charLower (c : Char) : Char :=
  if 65 ≤ c.toNat ∧ c.toNat ≤ 90 then Char.ofNat (c.toNat + 32) else c

/-- Model of `file.name.replace(/\.(xlsx|xls)$/i, '')`: strip one trailing
spreadsheet extension, matched case-insensitively; the two alternatives are
mutually exclusive at the end of a string. -/
def stripExt (name : JSStr) : JSStr :=
  let low := name.map charLower
  if jsEndsWith low (jstr ".xlsx") then name.take (name.length - 5)
  else if jsEndsWith low (jstr ".xls") then name.take (name.length - 4)
  else name

/-- Model of a workbook as exposed by the external codec: the ordered
`SheetNames` array and the `Sheets` name-to-content mapping.  The sheet
payload type is abstract. -/
structure Workbook (σ : Type) where
  sheetNames : List JSStr
  sheets : List (JSStr × σ)
  deriving DecidableEq

/-- Model of a file offered to the selection handler: its filename together
with what `XLSX.read` would produce from its bytes (`none` models a decode
failure, i.e. the library throwing). -/
structure RawFile (σ : Type) where
  name : JSStr
  content : Option (Workbook σ)
  deriving DecidableEq

/-- Model of the `UploadedFile` interface of the source: original filename,
the file object (represented by its decode result), and the user-editable
target sheet name. -/
structure UploadedFile (σ : Type) where
  name : JSStr
  content : Option (Workbook σ)
  sheetName : JSStr
  deriving DecidableEq

/-- Component state of `App`: the pending file list and the in-progress flag
(the drag-over flag is pure styling and carries no logic). -/
structure AppState (σ : Type) where
  files : List (UploadedFile σ)
  isProcessing : Bool
  deriving DecidableEq

/-- Model of `XLSX.utils.book_new()`. -/
def book_new (σ : Type) : Workbook (Option σ) := ⟨[], []⟩

/-- Association lookup modelling `workbook.Sheets[name]`. -/
def lookupSheet : List (JSStr × σ) → JSStr → Option σ
  | [], _ => none
  | (n, ws) :: rest, key => if n = key then some ws else lookupSheet rest key

/-- Model of `workbook.Sheets[workbook.SheetNames[0]]`: the first sheet of a
decoded workbook; `none` when the workbook has no sheets. -/
def firstSheet (wb : Workbook σ) : Option σ :=
  wb.sheetNames.head?.bind (fun n => lookupSheet wb.sheets n)

/-- Model of `XLSX.utils.book_append_sheet(wb, worksheet, sheetName)`. -/
def book_append_sheet (wb : Workbook τ) (ws : τ) (name : JSStr) : Workbook τ :=
  ⟨wb.sheetNames ++ [name], wb.sheets ++ [(name, ws)]⟩

/-- The collision `while` loop of `mergeAndDownload`, with an explicit fuel
argument (first trailing argument) so that the definition is structural.
`name` is the current `sheetName` variable, `counter` the JS counter, and
`att` instruments the number of loop iterations executed so far.  A `none`
result means the fuel ran out while every tried name was still present. -/
def resolveLoopF (used : List JSStr) (s : JSStr) :
    Nat → JSStr → Nat → Nat → Option (JSStr × Nat)
  | 0, _, _, _ => none
  | fuel+1, name, counter, att =>
    if name ∈ used then
      resolveLoopF used s fuel (candidate s counter) (jsIncr counter) (att + 1)
    else
      some (name, att)

/-- Name resolution for one file against the names already placed in the
output workbook: start from `sheetName.slice(0, 31)` with `counter = 1`.
The fuel `used.length + 2` is proved sufficient below whenever the JS loop
terminates at all, so `none` here corresponds exactly to the JS loop
spinning forever. -/
def resolveNameO (used : List JSStr) (s : JSStr) : Option (JSStr × Nat) :=
  resolveLoopF used s (used.length + 2) (jsSlice0 s 31) 1 0

/-- Outcome of one invocation of the merge handler. -/
inductive MergeOutcome (σ : Type) where
  | noop
  | downloaded (wb : Workbook (Option σ))
  | alerted
  deriving DecidableEq

/-- Result of the `for` loop inside the `try` block. -/
inductive MergeRun (σ : Type) where
  | ok (wb : Workbook (Option σ))
  | decodeFailed
  deriving DecidableEq

/-- The sequential merge loop of `mergeAndDownload`: decode each file, take
its first sheet, resolve a fresh name against the accumulator's
`SheetNames`, append.  A decode failure (the first one reached) escapes as
`decodeFailed`; `none` propagates non-termination of the collision loop. -/
def mergeCore : List (UploadedFile σ) → Workbook (Option σ) → Option (MergeRun σ)
  | [], acc => some (.ok acc)
  | f :: rest, acc =>
    match f.content with
    | none => some .decodeFailed
    | some wb =>
      match resolveNameO acc.sheetNames f.sheetName with
      | none => none
      | some (r, _) => mergeCore rest (book_append_sheet acc (firstSheet wb) r)

/-- Model of the `mergeAndDownload` callback.  An empty pending list returns
early (before `setIsProcessing(true)`), producing no workbook and no
download.  Otherwise the loop runs; `XLSX.writeFile` is modelled by the
`downloaded` outcome, the `catch`/`alert` path by `alerted`, and the
`finally` clears the in-progress flag.  `none` models the call never
returning (the collision loop spinning forever); in that case the `finally`
block is never reached.  The pending file list is never written. -/
def mergeAndDownload (st : AppState σ) : Option (AppState σ × MergeOutcome σ) :=
  if st.files.length = 0 then some (st, .noop)
  else
    match mergeCore st.files (book_new σ) with
    | none => none
    | some (.ok wb) => some ({ st with isProcessing := false }, .downloaded wb)
    | some .decodeFailed => some ({ st with isProcessing := false }, .alerted)

/-- Conversion of a kept selection entry to an `UploadedFile`, with the
sheet name initialised to the filename minus its extension. -/
def toUploaded (f : RawFile σ) : UploadedFile σ := ⟨f.name, f.content, stripExt f.name⟩

/-- Model of `handleFileSelect`: keep exactly the files whose name ends with
`.xlsx` or `.xls` (case-sensitively, as `String.prototype.endsWith` is) and
append them, in order, to the pending list. -/
def handleFileSelect (st : AppState σ) (selected : List (RawFile σ)) : AppState σ :=
  let xlsxFiles := selected.filter
    (fun f => jsEndsWith f.name (jstr ".xlsx") || jsEndsWith f.name (jstr ".xls"))
  { st with files := st.files ++ xlsxFiles.map toUploaded }

/-- Model of `Array.prototype.map` with the element index, used by
`updateSheetName`. -/
def mapIdxFrom (g : Nat → α → β) (i : Nat) : List α → List β
  | [] => []
  | x :: xs => g i x :: mapIdxFrom g (i + 1) xs

/-- Model of `Array.prototype.filter` with the element index, used by
`removeFile`. -/
def filterIdxFrom (p : Nat → α → Bool) (i : Nat) : List α → List α
  | [] => []
  | x :: xs => if p i x then x :: filterIdxFrom p (i + 1) xs else filterIdxFrom p (i + 1) xs

/-- Model of `updateSheetName`: replace the sheet name of the entry at
`index`, verbatim, leaving every other entry unchanged. -/
def updateSheetName (st : AppState σ) (index : Nat) (newName : JSStr) : AppState σ :=
  let g := fun i f => if i = index then { f with sheetName := newName } else f
  { st with files := mapIdxFrom g 0 st.files }

/-- Model of `removeFile`: drop the entry at `index`. -/
def removeFile (st : AppState σ) (index : Nat) : AppState σ :=
  { st with files := filterIdxFrom (fun i _ => decide (i ≠ index)) 0 st.files }

/-- The user actions that can touch the pending list before a merge. -/
inductive UiAction (σ : Type) where
  | select (sel : List (RawFile σ))
  | rename (index : Nat) (newName : JSStr)
  | remove (index : Nat)
  | clear

/-- One step of the pre-merge user interface. -/
def uiStep (st : AppState σ) : UiAction σ → AppState σ
  | .select sel => handleFileSelect st sel
  | .rename i n => updateSheetName st i n
  | .remove i => removeFile st i
  | .clear => { st with files := [] }

/-- A run of pre-merge user actions from a starting state. -/
def uiRun (st : AppState σ) (acts : List (UiAction σ)) : AppState σ :=
  acts.foldl uiStep st

/-- The name actually tried at overall attempt index `j` of the collision
loop for requested name `s`: the truncated request first, then the suffixed
candidates, whose counter saturates at 2^53. -/
def trySeq (s : JSStr) : Nat → JSStr
  | 0 => jsSlice0 s 31
  | j+1 => candidate s (min (j + 1) BIG)

/-- Projection of a merge outcome to the sheet names it delivers. -/
def outcomeSheetNames : MergeOutcome σ → Option (List JSStr)
  | .downloaded wb => some wb.sheetNames
  | _ => none

/-- Predicate on user actions matching the UI's constraints: the rename
input carries `maxLength={31}`, and a selection initialises sheet names from
filenames, so this asks the initialised names to fit as well. -/
def actionOk {σ : Type} : UiAction σ → Prop
  | .select sel => ∀ f ∈ sel, (stripExt f.name).length ≤ 31
  | .rename _ n => n.length ≤ 31
  | .remove _ => True
  | .clear => True

/-- The requested name used throughout the large-scale examples. -/
def aStr : JSStr := jstr "a"

/-- The first `n` names the loop tries for the request `"a"`; these are the
names an `n`-fold merge of files all requesting `"a"` assigns. -/
def tryListA (n : Nat) : List JSStr := (List.range n).map (trySeq aStr)

/-- A one-sheet input workbook used in concrete examples. -/
def wbS : Workbook Nat := ⟨[jstr "S"], [(jstr "S", 0)]⟩

/-- A well-formed uploaded file requesting the sheet name `"a"`. -/
def fileA : UploadedFile Nat := ⟨jstr "a.xlsx", some wbS, jstr "a"⟩

/-- An uploaded file whose content fails to decode. -/
def fileBad : UploadedFile Nat := ⟨jstr "bad.xlsx", none, jstr "bad"⟩

/-- A pending list of 2^53 + 2 identically-named files: the last one sends
the collision counter to its IEEE-754 fixed point. -/
def hangState : AppState Nat := ⟨List.replicate (BIG + 2) fileA, false⟩

/-- The same pathological list followed by an undecodable file. -/
def hangBadState : AppState Nat := ⟨List.replicate (BIG + 2) fileA ++ [fileBad], false⟩

/-- A small action trace: select one file, then rename its sheet. -/
def demoActs : List (UiAction Nat) :=
  [.select [⟨jstr "a.xlsx", none⟩], .rename 0 (jstr "Sheet")]

/-- A well-formed uploaded file requesting the sheet name `"b"`. -/
def fileB : UploadedFile Nat := ⟨jstr "b.xlsx", some wbS, jstr "b"⟩

/-! ### Decimal printing lemmas -/

/-- Unfolding equation for `natDigitsAux` at positive fuel. -/
theorem natDigitsAux_succ (f n : Nat) :
    natDigitsAux (f + 1) n =
      if n < 10 then [digitChar n] else natDigitsAux f (n / 10) ++ [digitChar (n % 10)] := rfl

/-- The fuel of `natDigitsAux` is irrelevant as long as it exceeds the input. -/
theorem natDigitsAux_congr (n : Nat) :
    ∀ f g, n < f → n < g → natDigitsAux f n = natDigitsAux g n := by
  induction n using Nat.strong_induction_on with
  | _ n ih =>
    intro f g hf hg
    cases f with
    | zero => omega
    | succ f' =>
      cases g with
      | zero => omega
      | succ g' =>
        rw [natDigitsAux_succ, natDigitsAux_succ]
        by_cases h10 : n < 10
        · simp [h10]
        · have hd : n / 10 < n := Nat.div_lt_self (by omega) (by omega)
          rw [if_neg h10, if_neg h10, ih (n / 10) hd f' g' (by omega) (by omega)]

/-- Recursion equation for `natDigits`. -/
theorem natDigits_unfold (n : Nat) :
    natDigits n =
      if n < 10 then [digitChar n] else natDigits (n / 10) ++ [digitChar (n % 10)] := by
  rw [natDigits, natDigitsAux_succ]
  by_cases h10 : n < 10
  · simp [h10]
  · have hd : n / 10 < n := Nat.div_lt_self (by omega) (by omega)
    rw [if_neg h10, if_neg h10, natDigitsAux_congr (n / 10) n (n / 10 + 1) hd (by omega)]
    rfl

/-- A decimal representation is never empty. -/
theorem natDigits_ne_nil (n : Nat) : natDigits n ≠ [] := by
  rw [natDigits_unfold]
  split <;> simp

/-- Every character of a decimal representation is a digit character. -/
theorem mem_natDigits (n : Nat) : ∀ c ∈ natDigits n, ∃ d, d < 10 ∧ c = digitChar d := by
  induction n using Nat.strong_induction_on with
  | _ n ih =>
    intro c hc
    rw [natDigits_unfold] at hc
    by_cases h10 : n < 10
    · rw [if_pos h10, List.mem_singleton] at hc
      exact ⟨n, h10, hc⟩
    · rw [if_neg h10, List.mem_append] at hc
      rcases hc with hc | hc
      · exact ih (n / 10) (Nat.div_lt_self (by omega) (by omega)) c hc
      · rw [List.mem_singleton] at hc
        exact ⟨n % 10, Nat.mod_lt _ (by omega), hc⟩

/-- No digit character is an underscore. -/
theorem digitChar_ne_underscore (d : Nat) : digitChar d ≠ '_' := by
  unfold digitChar
  split <;> decide

/-- The underscore never occurs in a decimal representation. -/
theorem natDigits_no_underscore (n : Nat) : '_' ∉ natDigits n := by
  intro h
  obtain ⟨d, _, hd⟩ := mem_natDigits n '_' h
  exact digitChar_ne_underscore d hd.symm

/-- Digit characters of distinct digits are distinct. -/
theorem digitChar_injOn : ∀ d < 10, ∀ e < 10, digitChar d = digitChar e → d = e := by decide

/-- Decimal printing is injective. -/
theorem natDigits_inj : ∀ m n : Nat, natDigits m = natDigits n → m = n := by
  intro m
  induction m using Nat.strong_induction_on with
  | _ m ih =>
    intro n h
    rw [natDigits_unfold m, natDigits_unfold n] at h
    by_cases hm : m < 10 <;> by_cases hn : n < 10
    · rw [if_pos hm, if_pos hn] at h
      exact digitChar_injOn m hm n hn (by injection h)
    · rw [if_pos hm, if_neg hn] at h
      have hlen := congrArg List.length h
      rw [List.length_singleton, List.length_append, List.length_singleton] at hlen
      exact absurd (List.length_eq_zero.mp (by omega)) (natDigits_ne_nil (n / 10))
    · rw [if_neg hm, if_pos hn] at h
      have hlen := congrArg List.length h
      rw [List.length_append, List.length_singleton, List.length_singleton] at hlen
      exact absurd (List.length_eq_zero.mp (by omega)) (natDigits_ne_nil (m / 10))
    · rw [if_neg hm, if_neg hn] at h
      obtain ⟨h1, h2⟩ := List.append_inj' h (by simp)
      have hdiv : m / 10 = n / 10 :=
        ih (m / 10) (Nat.div_lt_self (by omega) (by omega)) (n / 10) h1
      have hmod : m % 10 = n % 10 :=
        digitChar_injOn (m % 10) (Nat.mod_lt _ (by omega)) (n % 10) (Nat.mod_lt _ (by omega))
          (by injection h2)
      omega

/-- Length bound for decimal printing: numbers below `10 ^ (e + 1)` print in
at most `e + 1` digits. -/
theorem natDigits_len_le : ∀ e k : Nat, k < 10 ^ (e + 1) → (natDigits k).length ≤ e + 1 := by
  intro e
  induction e with
  | zero =>
    intro k hk
    rw [natDigits_unfold, if_pos (by omega : k < 10)]
    simp
  | succ e ih =>
    intro k hk
    rw [natDigits_unfold]
    by_cases h10 : k < 10
    · rw [if_pos h10]; simp
    · rw [if_neg h10, List.length_append]
      have hdiv : k / 10 < 10 ^ (e + 1) := by
        rw [Nat.div_lt_iff_lt_mul (by omega)]
        calc k < 10 ^ (e + 1 + 1) := hk
        _ = 10 ^ (e + 1) * 10 := by rw [pow_succ]
      have := ih (k / 10) hdiv
      simp
      omega

/-- Powers of ten print with exactly one digit more than their exponent. -/
theorem natDigits_pow10_len : ∀ e : Nat, (natDigits (10 ^ e)).length = e + 1 := by
  intro e
  induction e with
  | zero =>
    rw [pow_zero, natDigits_unfold, if_pos (by omega)]
    rfl
  | succ e ih =>
    have hge : ¬10 ^ (e + 1) < 10 := by
      have : (10 : Nat) ^ 1 ≤ 10 ^ (e + 1) := Nat.pow_le_pow_right (by omega) (by omega)
      simpa using this
    rw [natDigits_unfold, if_neg hge, List.length_append]
    have hq : 10 ^ (e + 1) / 10 = 10 ^ e := by
      rw [pow_succ]
      exact Nat.mul_div_cancel _ (by omega)
    rw [hq, ih]
    simp

/-! ### Candidate-name lemmas -/

/-- A suffix of a common list that is no longer than another suffix of it is
a suffix of that other suffix. -/
theorem suffix_of_suffix_length_le {l l₁ l₂ : List α} (h1 : l₁ <:+ l) (h2 : l₂ <:+ l)
    (hl : l₁.length ≤ l₂.length) : l₁ <:+ l₂ := by
  obtain ⟨a, rfl⟩ := h2
  obtain ⟨b, hb⟩ := h1
  rw [List.append_eq_append_iff] at hb
  rcases hb with ⟨w, _, hw2⟩ | ⟨w, _, hw2⟩
  · have : w = [] := by
      have := congrArg List.length hw2
      simp at this
      exact List.length_eq_zero.mp (by omega)
    subst this
    simp at hw2
    exact hw2 ▸ List.suffix_refl _
  · exact ⟨w, hw2.symm⟩

/-- Each candidate carries its suffix at the end. -/
theorem candidate_ends (s : JSStr) (k : Nat) : sfx k <:+ candidate s k :=
  List.suffix_append _ _

theorem candidate_inj_aux {s : JSStr} {k k' : Nat} (h : candidate s k = candidate s k')
    (hle : (sfx k).length ≤ (sfx k').length) : k = k' := by
  have h1 : sfx k <:+ candidate s k' := h ▸ candidate_ends s k
  have hs : sfx k <:+ sfx k' := suffix_of_suffix_length_le h1 (candidate_ends s k') hle
  obtain ⟨t, ht⟩ := hs
  cases t with
  | nil =>
    simp only [List.nil_append, sfx] at ht
    exact natDigits_inj k k' (by injection ht)
  | cons c t' =>
    simp only [sfx, List.cons_append] at ht
    have hmem : '_' ∈ natDigits k' := by
      have : t' ++ '_' :: natDigits k = natDigits k' := by injection ht
      rw [← this]
      simp
    exact absurd hmem (natDigits_no_underscore k')

/-- Distinct counters produce distinct candidate names, for any requested
name: the two candidates end in different decimal suffixes. -/
theorem candidate_inj {s : JSStr} {k k' : Nat} (h : candidate s k = candidate s k') : k = k' := by
  rcases Nat.le_total (sfx k).length (sfx k').length with hle | hle
  · exact candidate_inj_aux h hle
  · exact (candidate_inj_aux h.symm hle).symm

/-- Lengths of non-negative slices. -/
theorem length_jsSlice0_le {s : JSStr} {e : Int} (he : 0 ≤ e) :
    (jsSlice0 s e).length ≤ e.toNat := by
  rw [jsSlice0, if_neg (by omega)]
  simp [List.length_take]

/-- Any candidate whose whole suffix fits in 31 characters is itself at most
31 characters long. -/
theorem candidate_length_le (s : JSStr) (k : Nat) (h : (sfx k).length ≤ 31) :
    (candidate s k).length ≤ 31 := by
  rw [candidate, List.length_append]
  have h2 := length_jsSlice0_le (s := s) (e := (31 : Int) - (sfx k).length) (by omega)
  omega

theorem sfx_length (k : Nat) : (sfx k).length = (natDigits k).length + 1 := by simp [sfx]

/-- Below the counter's saturation point the suffix is at most 17 characters
(an underscore plus at most 16 digits). -/
theorem sfx_length_le_of_le_BIG (k : Nat) (h : k ≤ BIG) : (sfx k).length ≤ 17 := by
  rw [sfx_length]
  have hk : k < 10 ^ 16 := lt_of_le_of_lt h (by norm_num [BIG])
  have := natDigits_len_le 15 k hk
  omega

/-- Every name the collision loop can ever try is at most 31 characters:
the saturating counter keeps the suffix within 17 characters. -/
theorem trySeq_length_le (s : JSStr) (j : Nat) : (trySeq s j).length ≤ 31 := by
  cases j with
  | zero =>
    have := length_jsSlice0_le (s := s) (e := (31 : Int)) (by omega)
    simpa [trySeq] using this
  | succ j =>
    exact candidate_length_le s _
      ((sfx_length_le_of_le_BIG _ (Nat.min_le_right _ _)).trans (by omega))

/-! ### Collision-loop lemmas -/

theorem loop_step {used : List JSStr} {s : JSStr} {fuel : Nat} {name : JSStr} {c att : Nat}
    (hmem : name ∈ used) :
    resolveLoopF used s (fuel + 1) name c att =
      resolveLoopF used s fuel (candidate s c) (jsIncr c) (att + 1) := by
  simp [resolveLoopF, hmem]

theorem loop_exit {used : List JSStr} {s : JSStr} {fuel : Nat} {name : JSStr} {c att : Nat}
    (hmem : name ∉ used) :
    resolveLoopF used s (fuel + 1) name c att = some (name, att) := by
  simp [resolveLoopF, hmem]

/-- The JS counter along the loop is `min (att + 1) BIG` after `att`
iterations; this is its one-step evolution. -/
theorem jsIncr_min (n : Nat) : jsIncr (min (n + 1) BIG) = min (n + 2) BIG := by
  rw [jsIncr]
  rcases Nat.lt_or_ge (n + 1) BIG with h | h
  · rw [Nat.min_eq_left (by omega), if_pos h, Nat.min_eq_left (by omega)]
  · rw [Nat.min_eq_right (by omega), if_neg (by omega), Nat.min_eq_right (by omega)]

/-- Characterisation of a terminating run of the collision loop started at
overall attempt `att`: the result is the first tried name not present in
`used`, every earlier try from `att` on was present, and the instrumented
count records the index of the returned try. -/
theorem loop_master (used : List JSStr) (s : JSStr) :
    ∀ fuel att r i,
      resolveLoopF used s fuel (trySeq s att) (min (att + 1) BIG) att = some (r, i) →
      r ∉ used ∧ att ≤ i ∧ r = trySeq s i ∧ ∀ j, att ≤ j → j < i → trySeq s j ∈ used := by
  intro fuel
  induction fuel with
  | zero =>
    intro att r i h
    simp [resolveLoopF] at h
  | succ fuel ih =>
    intro att r i h
    by_cases hmem : trySeq s att ∈ used
    · rw [loop_step hmem, jsIncr_min] at h
      have hcand : candidate s (min (att + 1) BIG) = trySeq s (att + 1) := rfl
      rw [hcand] at h
      obtain ⟨h1, h2, h3, h4⟩ := ih (att + 1) r i h
      refine ⟨h1, by omega, h3, fun j hj1 hj2 => ?_⟩
      rcases Nat.eq_or_lt_of_le hj1 with rfl | hlt
      · exact hmem
      · exact h4 j (by omega) hj2
    · rw [loop_exit hmem] at h
      injection h with h'
      injection h' with ha hb
      subst ha
      subst hb
      exact ⟨hmem, Nat.le_refl _, rfl, fun j hj1 hj2 => by omega⟩

/-- If some try with index within the remaining fuel is free, the loop
terminates. -/
theorem loop_total (used : List JSStr) (s : JSStr) :
    ∀ fuel att, (∃ m, att ≤ m ∧ m < att + fuel ∧ trySeq s m ∉ used) →
      (resolveLoopF used s fuel (trySeq s att) (min (att + 1) BIG) att).isSome := by
  intro fuel
  induction fuel with
  | zero =>
    intro att h
    obtain ⟨m, h1, h2, _⟩ := h
    omega
  | succ fuel ih =>
    intro att h
    obtain ⟨m, h1, h2, h3⟩ := h
    by_cases hmem : trySeq s att ∈ used
    · rw [loop_step hmem, jsIncr_min]
      have hcand : candidate s (min (att + 1) BIG) = trySeq s (att + 1) := rfl
      rw [hcand]
      apply ih (att + 1)
      refine ⟨m, ?_, by omega, h3⟩
      rcases Nat.eq_or_lt_of_le h1 with rfl | hlt
      · exact (h3 hmem).elim
      · omega
    · rw [loop_exit hmem]
      rfl

/-- Pigeonhole for lists: a duplicate-free list contained in another is no
longer than it. -/
theorem nodup_length_le {l₁ l₂ : List α} (h : l₁.Nodup) (hs : l₁ ⊆ l₂) :
    l₁.length ≤ l₂.length :=
  (h.subperm hs).length_le

/-- Below saturation, distinct loop iterations try distinct candidates. -/
theorem tries_nodup (s : JSStr) (n : Nat) (hn : n ≤ BIG) :
    ((List.range n).map (fun j => trySeq s (j + 1))).Nodup := by
  apply List.Nodup.map_on ?_ (List.nodup_range n)
  intro x hx y hy hxy
  rw [List.mem_range] at hx hy
  have hx1 : trySeq s (x + 1) = candidate s (x + 1) := by
    show candidate s (min (x + 1) BIG) = _
    rw [Nat.min_eq_left (by omega)]
  have hy1 : trySeq s (y + 1) = candidate s (y + 1) := by
    show candidate s (min (y + 1) BIG) = _
    rw [Nat.min_eq_left (by omega)]
  rw [hx1, hy1] at hxy
  have := candidate_inj hxy
  omega

/-- For fewer than 2^53 used names, some try among the first
`used.length + 2` is free. -/
theorem exists_free_try (used : List JSStr) (s : JSStr) (h : used.length < BIG) :
    ∃ m, m ≤ used.length + 1 ∧ trySeq s m ∉ used := by
  by_contra hc
  push_neg at hc
  have hsub : ((List.range (used.length + 1)).map (fun j => trySeq s (j + 1))) ⊆ used := by
    intro x hx
    rw [List.mem_map] at hx
    obtain ⟨j, hj, rfl⟩ := hx
    rw [List.mem_range] at hj
    exact hc (j + 1) (by omega)
  have hle := nodup_length_le (tries_nodup s (used.length + 1) (by omega)) hsub
  simp at hle

/-- The program's entry into the loop is the loop state at attempt 0. -/
theorem resolveNameO_eq_loop (used : List JSStr) (s : JSStr) :
    resolveNameO used s =
      resolveLoopF used s (used.length + 2) (trySeq s 0) (min 1 BIG) 0 := by
  have h0 : trySeq s 0 = jsSlice0 s 31 := rfl
  have h1 : min 1 BIG = 1 := Nat.min_eq_left (by norm_num [BIG])
  rw [resolveNameO, h0, h1]

/-- Any name returned by the resolver is the first free try: it is absent
from `used` while all earlier tries were present. -/
theorem resolveNameO_spec {used : List JSStr} {s r : JSStr} {i : Nat}
    (h : resolveNameO used s = some (r, i)) :
    r ∉ used ∧ r = trySeq s i ∧ ∀ j, j < i → trySeq s j ∈ used := by
  rw [resolveNameO_eq_loop] at h
  obtain ⟨h1, _, h3, h4⟩ := loop_master used s (used.length + 2) 0 r i h
  exact ⟨h1, h3, fun j hj => h4 j (by omega) hj⟩

/-- Totality below saturation: with fewer than 2^53 names placed, the
collision loop terminates. -/
theorem resolveNameO_isSome (used : List JSStr) (s : JSStr) (h : used.length < BIG) :
    (resolveNameO used s).isSome := by
  rw [resolveNameO_eq_loop]
  apply loop_total
  obtain ⟨m, hm1, hm2⟩ := exists_free_try used s h
  exact ⟨m, by omega, by omega, hm2⟩

/-- Attempt bound below saturation: the loop body runs at most
`used.length + 1` times. -/
theorem resolveNameO_att_le {used : List JSStr} {s r : JSStr} {i : Nat}
    (hlen : used.length < BIG) (h : resolveNameO used s = some (r, i)) :
    i ≤ used.length + 1 := by
  obtain ⟨-, -, h4⟩ := resolveNameO_spec h
  by_contra hc
  push_neg at hc
  have hsub : ((List.range (used.length + 1)).map (fun j => trySeq s (j + 1))) ⊆ used := by
    intro x hx
    rw [List.mem_map] at hx
    obtain ⟨j, hj, rfl⟩ := hx
    rw [List.mem_range] at hj
    exact h4 (j + 1) (by omega)
  have hle := nodup_length_le (tries_nodup s (used.length + 1) (by omega)) hsub
  simp at hle

/-- Any resolved name is at most 31 characters long (unconditionally: the
saturating counter keeps every suffix short). -/
theorem resolveNameO_length {used : List JSStr} {s r : JSStr} {i : Nat}
    (h : resolveNameO used s = some (r, i)) : r.length ≤ 31 := by
  obtain ⟨-, h3, -⟩ := resolveNameO_spec h
  rw [h3]
  exact trySeq_length_le s i

/-- When the truncated request is still free the loop never runs. -/
theorem resolveNameO_imm {used : List JSStr} {s : JSStr} (h : jsSlice0 s 31 ∉ used) :
    resolveNameO used s = some (jsSlice0 s 31, 0) := by
  have h2 : used.length + 2 = (used.length + 1) + 1 := rfl
  rw [resolveNameO, h2, loop_exit h]

/-! ### Merge-loop lemmas -/

/-- A request that already fits in 31 characters is not truncated. -/
theorem jsSlice0_of_le {s : JSStr} (h : s.length ≤ 31) : jsSlice0 s 31 = s := by
  rw [jsSlice0, if_neg (by omega)]
  exact List.take_of_length_le (by omega)

theorem mergeCore_nil {σ : Type} (acc : Workbook (Option σ)) :
    mergeCore ([] : List (UploadedFile σ)) acc = some (.ok acc) := rfl

theorem mergeCore_cons_bad {σ : Type} (f : UploadedFile σ) (rest : List (UploadedFile σ))
    (acc : Workbook (Option σ)) (hc : f.content = none) :
    mergeCore (f :: rest) acc = some .decodeFailed := by
  simp only [mergeCore, hc]

theorem mergeCore_cons_some {σ : Type} (f : UploadedFile σ) (rest : List (UploadedFile σ))
    (acc : Workbook (Option σ)) (dwb : Workbook σ) (r : JSStr) (i : Nat)
    (hc : f.content = some dwb) (hr : resolveNameO acc.sheetNames f.sheetName = some (r, i)) :
    mergeCore (f :: rest) acc = mergeCore rest (book_append_sheet acc (firstSheet dwb) r) := by
  simp only [mergeCore, hc, hr]

theorem mergeCore_cons_hang {σ : Type} (f : UploadedFile σ) (rest : List (UploadedFile σ))
    (acc : Workbook (Option σ)) (dwb : Workbook σ)
    (hc : f.content = some dwb) (hr : resolveNameO acc.sheetNames f.sheetName = none) :
    mergeCore (f :: rest) acc = none := by
  simp only [mergeCore, hc, hr]

/-- Sheet-name invariant of the merge loop: distinctness and the 31-character
bound are preserved from the accumulator to any completed result. -/
theorem mergeCore_ok_inv {σ : Type} :
    ∀ (files : List (UploadedFile σ)) (acc : Workbook (Option σ)) (wb : Workbook (Option σ)),
      acc.sheetNames.Nodup → (∀ n ∈ acc.sheetNames, n.length ≤ 31) →
      mergeCore files acc = some (.ok wb) →
      wb.sheetNames.Nodup ∧ ∀ n ∈ wb.sheetNames, n.length ≤ 31 := by
  intro files
  induction files with
  | nil =>
    intro acc wb h1 h2 h
    rw [mergeCore_nil] at h
    injection h with h'
    injection h' with h''
    exact h'' ▸ ⟨h1, h2⟩
  | cons f rest ih =>
    intro acc wb h1 h2 h
    cases hc : f.content with
    | none =>
      rw [mergeCore_cons_bad f rest acc hc] at h
      injection h with h'
      exact absurd h' (by simp)
    | some dwb =>
      cases hr : resolveNameO acc.sheetNames f.sheetName with
      | none =>
        rw [mergeCore_cons_hang f rest acc dwb hc hr] at h
        exact absurd h (by simp)
      | some p =>
        obtain ⟨r, i⟩ := p
        rw [mergeCore_cons_some f rest acc dwb r i hc hr] at h
        obtain ⟨hnot, -, -⟩ := resolveNameO_spec hr
        apply ih _ wb ?_ ?_ h
        · show (acc.sheetNames ++ [r]).Nodup
          rw [List.nodup_append]
          refine ⟨h1, by simp, ?_⟩
          intro x hx hxr
          rw [List.mem_singleton] at hxr
          exact hnot (hxr ▸ hx)
        · intro n hn
          rw [show (book_append_sheet acc (firstSheet dwb) r).sheetNames
              = acc.sheetNames ++ [r] from rfl, List.mem_append] at hn
          rcases hn with hn | hn
          · exact h2 n hn
          · rw [List.mem_singleton] at hn
            exact hn ▸ resolveNameO_length hr

/-- When the requested names are distinct and short, the merge loop assigns
them verbatim, in order. -/
theorem mergeCore_names_exact {σ : Type} :
    ∀ (files : List (UploadedFile σ)) (acc : Workbook (Option σ)) (wb : Workbook (Option σ)),
      (acc.sheetNames ++ files.map (fun f => f.sheetName)).Nodup →
      (∀ f ∈ files, f.sheetName.length ≤ 31) →
      mergeCore files acc = some (.ok wb) →
      wb.sheetNames = acc.sheetNames ++ files.map (fun f => f.sheetName) := by
  intro files
  induction files with
  | nil =>
    intro acc wb _ _ h
    rw [mergeCore_nil] at h
    injection h with h'
    injection h' with h''
    simp [← h'']
  | cons f rest ih =>
    intro acc wb hnodup hlen h
    cases hc : f.content with
    | none =>
      rw [mergeCore_cons_bad f rest acc hc] at h
      injection h with h'
      exact absurd h' (by simp)
    | some dwb =>
      have hs31 : jsSlice0 f.sheetName 31 = f.sheetName :=
        jsSlice0_of_le (hlen f (by simp))
      have hnot : f.sheetName ∉ acc.sheetNames := by
        rw [List.map_cons, List.nodup_append] at hnodup
        intro hmem
        exact hnodup.2.2 hmem (by simp)
      have hr : resolveNameO acc.sheetNames f.sheetName = some (f.sheetName, 0) := by
        have := resolveNameO_imm (s := f.sheetName) (hs31 ▸ hnot)
        rwa [hs31] at this
      rw [mergeCore_cons_some f rest acc dwb f.sheetName 0 hc hr] at h
      have hrec := ih (book_append_sheet acc (firstSheet dwb) f.sheetName) wb ?_ ?_ h
      · rw [hrec]
        show acc.sheetNames ++ [f.sheetName] ++ rest.map (fun f => f.sheetName) = _
        simp
      · show (acc.sheetNames ++ [f.sheetName] ++ rest.map (fun f => f.sheetName)).Nodup
        rw [List.append_assoc, List.singleton_append]
        simpa using hnodup
      · exact fun g hg => hlen g (by simp [hg])

/-- The merge loop never recovers from a hanging collision loop. -/
theorem mergeCore_append_none {σ : Type} :
    ∀ (l1 l2 : List (UploadedFile σ)) (acc : Workbook (Option σ)),
      mergeCore l1 acc = none → mergeCore (l1 ++ l2) acc = none := by
  intro l1
  induction l1 with
  | nil =>
    intro l2 acc h
    rw [mergeCore_nil] at h
    exact absurd h (by simp)
  | cons f rest ih =>
    intro l2 acc h
    cases hc : f.content with
    | none =>
      rw [mergeCore_cons_bad f rest acc hc] at h
      exact absurd h (by simp)
    | some dwb =>
      cases hr : resolveNameO acc.sheetNames f.sheetName with
      | none =>
        rw [List.cons_append]
        exact mergeCore_cons_hang f _ acc dwb hc hr
      | some p =>
        obtain ⟨r, i⟩ := p
        rw [mergeCore_cons_some f rest acc dwb r i hc hr] at h
        rw [List.cons_append, mergeCore_cons_some f (rest ++ l2) acc dwb r i hc hr]
        exact ih l2 _ h

/-- With a decode failure somewhere in the list, and few enough files that
every collision loop along the way terminates, the merge reaches the failure
and aborts with the caught-exception result. -/
theorem mergeCore_bad_aborts {σ : Type} :
    ∀ (files : List (UploadedFile σ)) (acc : Workbook (Option σ)),
      (∃ f ∈ files, f.content = none) →
      acc.sheetNames.length + files.length ≤ BIG + 1 →
      mergeCore files acc = some .decodeFailed := by
  intro files
  induction files with
  | nil =>
    intro acc h _
    simp at h
  | cons f rest ih =>
    intro acc hex hlen
    cases hc : f.content with
    | none => exact mergeCore_cons_bad f rest acc hc
    | some dwb =>
      have hex' : ∃ g ∈ rest, g.content = none := by
        obtain ⟨g, hg, hgc⟩ := hex
        rcases List.mem_cons.mp hg with rfl | hgr
        · rw [hc] at hgc
          exact absurd hgc (by simp)
        · exact ⟨g, hgr, hgc⟩
      have hrest : 1 ≤ rest.length := by
        obtain ⟨g, hg, -⟩ := hex'
        have := List.length_pos.mpr (List.ne_nil_of_mem hg)
        omega
      have hlen' : acc.sheetNames.length + rest.length + 1 ≤ BIG + 1 := by
        rw [List.length_cons] at hlen
        omega
      have hsome := resolveNameO_isSome acc.sheetNames f.sheetName (by omega)
      obtain ⟨⟨r, i⟩, hr⟩ := Option.isSome_iff_exists.mp hsome
      rw [mergeCore_cons_some f rest acc dwb r i hc hr]
      apply ih _ hex'
      simp only [book_append_sheet, List.length_append, List.length_singleton]
      omega

/-! ### Saturation of the collision counter on pathological inputs -/

theorem trySeq_a_zero_ne_succ (j : Nat) : trySeq aStr 0 ≠ trySeq aStr (j + 1) := by
  intro h
  have hmem : '_' ∈ trySeq aStr (j + 1) := by
    show '_' ∈ candidate aStr (min (j + 1) BIG)
    rw [candidate]
    simp [sfx]
  rw [← h] at hmem
  have h0 : trySeq aStr 0 = ['a'] := by decide
  rw [h0] at hmem
  simp at hmem

/-- Below saturation, the try sequence for the request `"a"` is injective. -/
theorem trySeq_a_inj : ∀ i ≤ BIG, ∀ j ≤ BIG, trySeq aStr i = trySeq aStr j → i = j := by
  intro i hi j hj h
  cases i with
  | zero =>
    cases j with
    | zero => rfl
    | succ j => exact absurd h (trySeq_a_zero_ne_succ j)
  | succ i =>
    cases j with
    | zero => exact absurd h.symm (trySeq_a_zero_ne_succ i)
    | succ j =>
      have hi1 : trySeq aStr (i + 1) = candidate aStr (i + 1) := by
        show candidate aStr (min (i + 1) BIG) = _
        rw [Nat.min_eq_left (by omega)]
      have hj1 : trySeq aStr (j + 1) = candidate aStr (j + 1) := by
        show candidate aStr (min (j + 1) BIG) = _
        rw [Nat.min_eq_left (by omega)]
      rw [hi1, hj1] at h
      exact candidate_inj h

/-- Merging the `(n+1)`-st file named `"a"` onto `n` already-placed tries
yields try `n`: the loop walks over all earlier tries, which are exactly the
names already used. -/
theorem resolve_tryListA (n : Nat) (hn : n ≤ BIG) :
    resolveNameO (tryListA n) aStr = some (trySeq aStr n, n) := by
  have hnotmem : trySeq aStr n ∉ tryListA n := by
    intro hmem
    rw [tryListA, List.mem_map] at hmem
    obtain ⟨j, hj, hje⟩ := hmem
    rw [List.mem_range] at hj
    have := trySeq_a_inj j (by omega) n hn hje
    omega
  have hlen : (tryListA n).length = n := by simp [tryListA]
  have hsome : (resolveNameO (tryListA n) aStr).isSome := by
    rw [resolveNameO_eq_loop]
    apply loop_total
    exact ⟨n, by omega, by rw [hlen]; omega, hnotmem⟩
  obtain ⟨⟨r, i⟩, hr⟩ := Option.isSome_iff_exists.mp hsome
  obtain ⟨h1, h2, h3⟩ := resolveNameO_spec hr
  have hin : i = n := by
    rcases Nat.lt_trichotomy i n with hlt | heq | hgt
    · exfalso
      apply h1
      rw [h2, tryListA, List.mem_map]
      exact ⟨i, List.mem_range.mpr hlt, rfl⟩
    · exact heq
    · exact absurd (h3 n hgt) hnotmem
  subst hin
  rw [hr, h2]

/-- If every try is used, the loop never exits, whatever the fuel. -/
theorem loop_all_used_none (used : List JSStr) (s : JSStr) (hall : ∀ j, trySeq s j ∈ used) :
    ∀ fuel att, resolveLoopF used s fuel (trySeq s att) (min (att + 1) BIG) att = none := by
  intro fuel
  induction fuel with
  | zero => intro att; rfl
  | succ fuel ih =>
    intro att
    rw [loop_step (hall att), jsIncr_min]
    have hcand : candidate s (min (att + 1) BIG) = trySeq s (att + 1) := rfl
    rw [hcand]
    exact ih (att + 1)

/-- With 2^53 + 1 tries already placed, the collision loop for one more
request `"a"` spins forever: from try 2^53 on, the saturated counter keeps
producing the same already-used candidate. -/
theorem resolve_tryListA_saturated_none :
    resolveNameO (tryListA (BIG + 1)) aStr = none := by
  rw [resolveNameO_eq_loop]
  apply loop_all_used_none
  intro j
  rw [tryListA, List.mem_map]
  by_cases hj : j ≤ BIG
  · exact ⟨j, List.mem_range.mpr (by omega), rfl⟩
  · refine ⟨BIG, List.mem_range.mpr (by omega), ?_⟩
    cases j with
    | zero => omega
    | succ j' =>
      obtain ⟨b, hb⟩ : ∃ b, BIG = b + 1 := ⟨BIG - 1, by norm_num [BIG]⟩
      rw [hb]
      show candidate aStr (min (b + 1) BIG) = candidate aStr (min (j' + 1) BIG)
      rw [Nat.min_eq_left (by omega), ← hb, Nat.min_eq_right (by omega)]

/-- Merging `m` further copies of the file named `"a"` onto `n` placed tries
never returns once the saturation point falls inside the list. -/
theorem mergeCore_replicate_none :
    ∀ (m n : Nat) (acc : Workbook (Option Nat)), acc.sheetNames = tryListA n →
      n ≤ BIG + 1 → BIG + 2 ≤ n + m →
      mergeCore (List.replicate m fileA) acc = none := by
  intro m
  induction m with
  | zero =>
    intro n acc _ h2 h3
    omega
  | succ m ih =>
    intro n acc h1 h2 h3
    rw [List.replicate_succ]
    rcases Nat.lt_or_ge n (BIG + 1) with hlt | hge
    · have hres : resolveNameO acc.sheetNames fileA.sheetName = some (trySeq aStr n, n) := by
        rw [h1]
        exact resolve_tryListA n (by omega)
      rw [mergeCore_cons_some fileA _ acc wbS _ _ rfl hres]
      apply ih (n + 1)
      · show acc.sheetNames ++ [trySeq aStr n] = tryListA (n + 1)
        rw [h1, tryListA, tryListA, List.range_succ, List.map_append]
        rfl
      · omega
      · omega
    · have hn : n = BIG + 1 := by omega
      subst hn
      have hres : resolveNameO acc.sheetNames fileA.sheetName = none := by
        rw [h1]
        exact resolve_tryListA_saturated_none
      exact mergeCore_cons_hang fileA _ acc wbS rfl hres

/-! ### Pre-merge user-interface lemmas -/

theorem mem_mapIdxFrom {g : Nat → α → β} :
    ∀ (l : List α) (i : Nat) (y : β), y ∈ mapIdxFrom g i l → ∃ j x, x ∈ l ∧ y = g j x := by
  intro l
  induction l with
  | nil =>
    intro i y h
    simp [mapIdxFrom] at h
  | cons x xs ih =>
    intro i y h
    rcases List.mem_cons.mp h with rfl | h'
    · exact ⟨i, x, by simp, rfl⟩
    · obtain ⟨j, x', hx', rfl⟩ := ih (i + 1) y h'
      exact ⟨j, x', by simp [hx'], rfl⟩

theorem mem_filterIdxFrom {p : Nat → α → Bool} :
    ∀ (l : List α) (i : Nat) (y : α), y ∈ filterIdxFrom p i l → y ∈ l := by
  intro l
  induction l with
  | nil =>
    intro i y h
    simp [filterIdxFrom] at h
  | cons x xs ih =>
    intro i y h
    rw [filterIdxFrom] at h
    split at h
    · rcases List.mem_cons.mp h with rfl | h'
      · simp
      · simp [ih (i + 1) y h']
    · simp [ih (i + 1) y h]

/-- Every single pre-merge action whose payload fits the 31-character bound
preserves boundedness of all pending sheet names. -/
theorem uiStep_preserves_bound {σ : Type} (st : AppState σ) (a : UiAction σ)
    (hst : ∀ f ∈ st.files, f.sheetName.length ≤ 31) (ha : actionOk a) :
    ∀ f ∈ (uiStep st a).files, f.sheetName.length ≤ 31 := by
  cases a with
  | select sel =>
    intro f hf
    rw [show (uiStep st (.select sel)).files = st.files ++ _ from rfl,
      List.mem_append] at hf
    rcases hf with hf | hf
    · exact hst f hf
    · rw [List.mem_map] at hf
      obtain ⟨g, hg, rfl⟩ := hf
      rw [List.mem_filter] at hg
      exact ha g hg.1
  | rename idx n =>
    intro f hf
    have hf2 : f ∈ mapIdxFrom
        (fun i f => if i = idx then { f with sheetName := n } else f) 0 st.files := hf
    obtain ⟨j, x, hx, rfl⟩ := mem_mapIdxFrom st.files 0 f hf2
    by_cases hj : j = idx
    · simp only [hj, if_pos rfl]
      exact ha
    · simp only [if_neg hj]
      exact hst x hx
  | remove idx =>
    intro f hf
    exact hst f (mem_filterIdxFrom st.files 0 f hf)
  | clear =>
    intro f hf
    simp [uiStep] at hf

/-- Boundedness of pending sheet names is an inductive invariant of every
run of bounded pre-merge actions. -/
theorem uiRun_preserves_bound {σ : Type} :
    ∀ (acts : List (UiAction σ)) (st : AppState σ),
      (∀ f ∈ st.files, f.sheetName.length ≤ 31) → (∀ a ∈ acts, actionOk a) →
      ∀ f ∈ (uiRun st acts).files, f.sheetName.length ≤ 31 := by
  intro acts
  induction acts with
  | nil =>
    intro st h _
    simpa [uiRun] using h
  | cons a rest ih =>
    intro st hst hacts
    rw [uiRun, List.foldl_cons]
    exact ih (uiStep st a) (uiStep_preserves_bound st a hst (hacts a (by simp)))
      (fun b hb => hacts b (by simp [hb]))

/-! ### Claim theorems -/

/-- Claim C1 (confirmed): for every finite ordered list of uploaded files
with requested sheet names of arbitrary content (including duplicates, empty
strings, and names longer than 31 characters), the final names assigned into
the output workbook by the merge loop are pairwise distinct and each has
length at most 31 characters. -/
theorem c1_resolved_names_distinct_and_short {σ : Type} (files : List (UploadedFile σ))
    (wb : Workbook (Option σ)) (h : mergeCore files (book_new σ) = some (.ok wb)) :
    wb.sheetNames.Nodup ∧ ∀ n ∈ wb.sheetNames, n.length ≤ 31 :=
  mergeCore_ok_inv files (book_new σ) wb (by simp [book_new]) (by simp [book_new]) h

/-- Witness for C1: merging two files that both request `"a"` completes and
satisfies the invariant. -/
theorem c1_witness :
    mergeCore [fileA, fileA] (book_new Nat) =
        some (.ok (Workbook.mk [jstr "a", jstr "a_1"]
          [(jstr "a", some 0), (jstr "a_1", some 0)])) ∧
      ((Workbook.mk [jstr "a", jstr "a_1"]
          [(jstr "a", (some 0 : Option Nat)), (jstr "a_1", some 0)]).sheetNames.Nodup ∧
        ∀ n ∈ (Workbook.mk [jstr "a", jstr "a_1"]
          [(jstr "a", (some 0 : Option Nat)), (jstr "a_1", some 0)]).sheetNames,
          n.length ≤ 31) :=
  ⟨by decide, c1_resolved_names_distinct_and_short [fileA, fileA] _ (by decide)⟩

/-- Claim C2 (corrected): if decoding any single file fails and the pending
list is short enough that every collision loop before the failing file
terminates (at most 2^53 files), the whole merge aborts with the single
generic alert, no output is produced, and the file list and final state are
exactly the input list with the in-progress flag cleared. -/
theorem c2_decode_failure_aborts {σ : Type} (st : AppState σ)
    (hbad : ∃ f ∈ st.files, f.content = none) (hlen : st.files.length ≤ BIG) :
    mergeAndDownload st = some ({ st with isProcessing := false }, .alerted) := by
  have hne : st.files.length ≠ 0 := by
    obtain ⟨f, hf, -⟩ := hbad
    have := List.length_pos.mpr (List.ne_nil_of_mem hf)
    omega
  rw [mergeAndDownload, if_neg hne,
    mergeCore_bad_aborts st.files (book_new σ) hbad (by simp [book_new]; omega)]

/-- Witness for C2: a good file followed by an undecodable one alerts and
leaves the pending list unchanged. -/
theorem c2_witness :
    (∃ f ∈ (AppState.mk [fileA, fileBad] false).files, f.content = none) ∧
      mergeAndDownload (AppState.mk [fileA, fileBad] false) =
        some (AppState.mk [fileA, fileBad] false, .alerted) :=
  ⟨by decide, c2_decode_failure_aborts (AppState.mk [fileA, fileBad] false)
    (by decide) (by decide)⟩

/-- Counterexample for C2 as frozen: with 2^53 + 2 identically-named files
followed by an undecodable file, the merge never reaches the bad file — the
collision loop for the last `"a"`-file spins forever on its saturated
counter, so no alert is ever shown and no outcome is produced, although a
file in the list fails to decode. -/
theorem c2_counterexample :
    (∃ f ∈ hangBadState.files, f.content = none) ∧ mergeAndDownload hangBadState = none := by
  constructor
  · refine ⟨fileBad, ?_, rfl⟩
    rw [show hangBadState.files = List.replicate (BIG + 2) fileA ++ [fileBad] from rfl]
    exact List.mem_append_right _ (List.mem_singleton.mpr rfl)
  · have hne : hangBadState.files.length ≠ 0 := by
      rw [show hangBadState.files = List.replicate (BIG + 2) fileA ++ [fileBad] from rfl,
        List.length_append, List.length_replicate, List.length_singleton]
      omega
    have hm : mergeCore hangBadState.files (book_new Nat) = none := by
      show mergeCore (List.replicate (BIG + 2) fileA ++ [fileBad]) (book_new Nat) = none
      apply mergeCore_append_none
      exact mergeCore_replicate_none (BIG + 2) 0 _ rfl (Nat.zero_le _) (by omega)
    rw [mergeAndDownload, if_neg hne, hm]

/-- Claim C3 (corrected): name resolution is a function of the placed names
and the request (deterministic by construction); whenever fewer than 2^53
names are placed the loop terminates, and the number of suffixed candidate
attempts is at most one more than the number of names already placed. -/
theorem c3_resolution_total_bounded (used : List JSStr) (s : JSStr) (h : used.length < BIG) :
    (resolveNameO used s).isSome ∧
      ∀ r i, resolveNameO used s = some (r, i) → i ≤ used.length + 1 :=
  ⟨resolveNameO_isSome used s h, fun _ _ hri => resolveNameO_att_le h hri⟩

/-- Witness for C3: one placed name, terminating resolution within bound. -/
theorem c3_witness :
    ([jstr "Data"] : List JSStr).length < BIG ∧
      ((resolveNameO [jstr "Data"] (jstr "Data")).isSome ∧
        ∀ r i, resolveNameO [jstr "Data"] (jstr "Data") = some (r, i) →
          i ≤ ([jstr "Data"] : List JSStr).length + 1) :=
  ⟨by decide, c3_resolution_total_bounded [jstr "Data"] (jstr "Data") (by decide)⟩

/-- Counterexample for C3 as frozen, against both of its quantitative parts.
First, the loop is not total: on 2^53 + 2 files all requesting `"a"` the
merge never returns (the counter, an IEEE-754 double, sticks at 2^53 and the
candidate stops changing).  Second, the attempt count is not bounded by the
number of files already placed: with one placed sheet named 29 a's + `"_1"`
and the same requested name, the truncated request collides and so does the
`_1` candidate (it reproduces the request), so the loop runs 2 > 1 times. -/
theorem c3_counterexample :
    mergeAndDownload hangState = none ∧
      resolveNameO [jstr "aaaaaaaaaaaaaaaaaaaaaaaaaaaaa_1"]
          (jstr "aaaaaaaaaaaaaaaaaaaaaaaaaaaaa_1") =
        some (jstr "aaaaaaaaaaaaaaaaaaaaaaaaaaaaa_2", 2) ∧
      ¬(2 ≤ 1) := by
  refine ⟨?_, by decide, by omega⟩
  have hne : hangState.files.length ≠ 0 := by
    rw [show hangState.files = List.replicate (BIG + 2) fileA from rfl,
      List.length_replicate]
    omega
  have hm : mergeCore hangState.files (book_new Nat) = none := by
    show mergeCore (List.replicate (BIG + 2) fileA) (book_new Nat) = none
    exact mergeCore_replicate_none (BIG + 2) 0 _ rfl (Nat.zero_le _) (by omega)
  rw [mergeAndDownload, if_neg hne, hm]

/-- Claim C4 (corrected): every candidate is formed by truncating the base
name (never the suffix) to `31 - length suffix` characters; and a 31-character
request colliding with the one placed name resolves to the 31-character
`_1`-candidate — with base shortened by exactly 2 — provided that candidate
does not itself reproduce the request (otherwise the loop moves on to `_2`). -/
theorem c4_collision_truncates_base (s : JSStr) (h31 : s.length = 31)
    (hne : candidate s 1 ≠ s) :
    (∀ k, candidate s k = jsSlice0 s ((31 : Int) - (sfx k).length) ++ sfx k) ∧
      resolveNameO [s] s = some (candidate s 1, 1) ∧
      candidate s 1 = jsSlice0 s 29 ++ jstr "_1" ∧
      (candidate s 1).length = 31 ∧
      (jsSlice0 s 29).length = s.length - 2 ∧
      jsEndsWith (candidate s 1) (jstr "_1") = true := by
  have hsfx1 : sfx 1 = jstr "_1" := by decide
  have hc1 : candidate s 1 = jsSlice0 s 29 ++ jstr "_1" := by
    have hl2 : ((31 : Int) - ((jstr "_1").length : Int)) = 29 := by decide
    rw [candidate, hsfx1, hl2]
  have hbase : (jsSlice0 s 29).length = 29 := by
    rw [jsSlice0, if_neg (by omega), List.length_take,
      show ((29 : Int)).toNat = 29 from rfl, h31]
    omega
  have hlen31 : (candidate s 1).length = 31 := by
    rw [hc1, List.length_append, hbase, show (jstr "_1").length = 2 from rfl]
  have hmem : jsSlice0 s 31 ∈ [s] := by
    rw [jsSlice0_of_le (by omega)]
    exact List.mem_singleton.mpr rfl
  have hnotmem : candidate s 1 ∉ [s] := by
    rw [List.mem_singleton]
    exact hne
  have hres : resolveNameO [s] s = some (candidate s 1, 1) := by
    show resolveLoopF [s] s 3 (jsSlice0 s 31) 1 0 = _
    rw [show (3 : Nat) = 2 + 1 from rfl, loop_step hmem,
      show jsIncr 1 = 2 from by decide, show (2 : Nat) = 1 + 1 from rfl, loop_exit hnotmem]
  have hends : jsEndsWith (candidate s 1) (jstr "_1") = true := by
    rw [hc1, jsEndsWith]
    simp only [List.isSuffixOf_iff_suffix]
    exact List.suffix_append _ _
  exact ⟨fun _ => rfl, hres, hc1, hlen31, by rw [hbase, h31], hends⟩

/-- Witness for C4: 31 a's collide with themselves and resolve to the
truncated `_1` candidate. -/
theorem c4_witness :
    (jstr "aaaaaaaaaaaaaaaaaaaaaaaaaaaaaaa").length = 31 ∧
      candidate (jstr "aaaaaaaaaaaaaaaaaaaaaaaaaaaaaaa") 1 ≠
        jstr "aaaaaaaaaaaaaaaaaaaaaaaaaaaaaaa" ∧
      resolveNameO [jstr "aaaaaaaaaaaaaaaaaaaaaaaaaaaaaaa"]
          (jstr "aaaaaaaaaaaaaaaaaaaaaaaaaaaaaaa") =
        some (candidate (jstr "aaaaaaaaaaaaaaaaaaaaaaaaaaaaaaa") 1, 1) :=
  ⟨by decide, by decide,
    (c4_collision_truncates_base (jstr "aaaaaaaaaaaaaaaaaaaaaaaaaaaaaaa")
      (by decide) (by decide)).2.1⟩

/-- Counterexample for C4 as frozen: the 31-character name 29 b's + `"_1"`
collides once (the output workbook holds exactly that one name), yet the
resolved name ends in `"_2"`, not `"_1"`: truncating the base to 29
characters and appending `"_1"` reproduces the colliding name itself. -/
theorem c4_counterexample :
    (jstr "bbbbbbbbbbbbbbbbbbbbbbbbbbbbb_1").length = 31 ∧
      resolveNameO [jstr "bbbbbbbbbbbbbbbbbbbbbbbbbbbbb_1"]
          (jstr "bbbbbbbbbbbbbbbbbbbbbbbbbbbbb_1") =
        some (jstr "bbbbbbbbbbbbbbbbbbbbbbbbbbbbb_2", 2) ∧
      jsEndsWith (jstr "bbbbbbbbbbbbbbbbbbbbbbbbbbbbb_2") (jstr "_1") = false := by
  refine ⟨by decide, by decide, by decide⟩

/-- Claim C5 (confirmed): if all requested sheet names are pairwise distinct
and each is at most 31 characters, the merge loop assigns exactly the
requested names, unchanged and in order. -/
theorem c5_distinct_short_names_identity {σ : Type} (files : List (UploadedFile σ))
    (wb : Workbook (Option σ))
    (h1 : (files.map (fun f => f.sheetName)).Nodup)
    (h2 : ∀ f ∈ files, f.sheetName.length ≤ 31)
    (h : mergeCore files (book_new σ) = some (.ok wb)) :
    wb.sheetNames = files.map (fun f => f.sheetName) := by
  have hres := mergeCore_names_exact files (book_new σ) wb (by simpa [book_new] using h1) h2 h
  simpa [book_new] using hres

/-- Witness for C5: files named `"a"` and `"b"` keep their names. -/
theorem c5_witness :
    ([fileA, fileB].map (fun f => f.sheetName)).Nodup ∧
      (∀ f ∈ [fileA, fileB], f.sheetName.length ≤ 31) ∧
      mergeCore [fileA, fileB] (book_new Nat) =
        some (.ok (Workbook.mk [jstr "a", jstr "b"]
          [(jstr "a", some 0), (jstr "b", some 0)])) ∧
      (Workbook.mk [jstr "a", jstr "b"]
          [(jstr "a", (some 0 : Option Nat)), (jstr "b", some 0)]).sheetNames =
        [fileA, fileB].map (fun f => f.sheetName) :=
  ⟨by decide, by decide, by decide,
    c5_distinct_short_names_identity [fileA, fileB] _ (by decide) (by decide) (by decide)⟩

/-- Claim C6 (confirmed): duplicate requests resolve first-come-unsuffixed —
`"Data"`, `"Data"` become `"Data"`, `"Data_1"` — and the full pipeline on
`a.xlsx`, `b.xlsx`, `a.xlsx` downloads exactly the three sheets `a`, `b`,
`a_1`, in that order. -/
theorem c6_duplicates_first_come_unsuffixed :
    resolveNameO [] (jstr "Data") = some (jstr "Data", 0) ∧
      resolveNameO [jstr "Data"] (jstr "Data") = some (jstr "Data_1", 1) ∧
      ((mergeAndDownload (handleFileSelect (AppState.mk [] false)
          [RawFile.mk (jstr "a.xlsx") (some wbS), RawFile.mk (jstr "b.xlsx") (some wbS),
            RawFile.mk (jstr "a.xlsx") (some wbS)])).bind
        (fun p => outcomeSheetNames p.2)) = some [jstr "a", jstr "b", jstr "a_1"] := by
  refine ⟨by decide, by decide, by decide⟩

/-- Claim C7 (confirmed): `handleFileSelect` keeps exactly the files whose
names end with one of the two recognised extensions, silently dropping the
rest, and appends each kept file in selection order with its sheet name
initialised to the filename with the extension stripped. -/
theorem c7_selection_filter_and_init {σ : Type} (st : AppState σ) (sel : List (RawFile σ)) :
    (handleFileSelect st sel).files =
      st.files ++ (sel.filter (fun f =>
          jsEndsWith f.name (jstr ".xlsx") || jsEndsWith f.name (jstr ".xls"))).map
        (fun f => ⟨f.name, f.content, stripExt f.name⟩) ∧
      (handleFileSelect st sel).files.length =
        st.files.length + sel.countP (fun f =>
          jsEndsWith f.name (jstr ".xlsx") || jsEndsWith f.name (jstr ".xls")) := by
  constructor
  · rfl
  · simp [handleFileSelect, toUploaded, ← List.countP_eq_length_filter]

/-- Claim C8 (corrected): bounded pre-merge edits preserve the 31-character
bound on all pending sheet names — provided each selected file's stripped
filename fits in 31 characters and each rename payload does (the rename
input's `maxLength` enforces the latter); initialisation alone does not
truncate. -/
theorem c8_bounded_edits_invariant {σ : Type} (acts : List (UiAction σ))
    (h : ∀ a ∈ acts, actionOk a) :
    ∀ f ∈ (uiRun (AppState.mk [] false) acts).files, f.sheetName.length ≤ 31 :=
  uiRun_preserves_bound acts (AppState.mk [] false) (by simp) h

/-- Witness for C8: selecting a short-named file and renaming its sheet
keeps every pending name within 31 characters. -/
theorem c8_witness :
    (∀ a ∈ demoActs, actionOk a) ∧
      ∀ f ∈ (uiRun (AppState.mk [] false) demoActs).files, f.sheetName.length ≤ 31 := by
  have hok : ∀ a ∈ demoActs, actionOk a := by
    intro a ha
    rw [demoActs] at ha
    rcases List.mem_cons.mp ha with rfl | ha
    · show ∀ f ∈ [RawFile.mk (jstr "a.xlsx") (none : Option (Workbook Nat))],
        (stripExt f.name).length ≤ 31
      decide
    · rcases List.mem_singleton.mp ha with rfl
      show (jstr "Sheet").length ≤ 31
      decide
  exact ⟨hok, c8_bounded_edits_invariant demoActs hok⟩

/-- Counterexample for C8 as frozen: selecting a file whose basename has 32
characters initialises a pending sheet name of length 32 > 31 — the claimed
invariant fails right at initialisation, before any merge. -/
theorem c8_counterexample :
    ((handleFileSelect (AppState.mk [] false)
        [RawFile.mk (jstr "aaaaaaaaaaaaaaaaaaaaaaaaaaaaaaaa.xlsx")
          (none : Option (Workbook Nat))]).files.map
      (fun f => f.sheetName.length)) = [32] ∧ ¬(32 ≤ 31) := by
  refine ⟨by decide, by omega⟩

/-- Claim C9 (confirmed): invoking the merge on an empty file list is a
no-op — the handler returns before creating any workbook, producing no
download and leaving the state untouched. -/
theorem c9_empty_list_noop {σ : Type} (st : AppState σ) (h : st.files = []) :
    mergeAndDownload st = some (st, .noop) := by
  rw [mergeAndDownload, if_pos (by rw [h]; rfl)]

/-- Witness for C9. -/
theorem c9_witness :
    ((AppState.mk ([] : List (UploadedFile Nat)) false).files = []) ∧
      mergeAndDownload (AppState.mk ([] : List (UploadedFile Nat)) false) =
        some (AppState.mk [] false, .noop) :=
  ⟨rfl, c9_empty_list_noop (AppState.mk [] false) rfl⟩

/-- Claim C10 (confirmed): the selection filter is case-sensitive while the
stripping regex is case-insensitive: `"A.XLSX"` is dropped entirely even
though the stripping regex would match it, and every file ever added to the
pending list has a name ending in lowercase `".xlsx"` or `".xls"`. -/
theorem c10_case_sensitivity :
    (handleFileSelect (AppState.mk [] false)
        [RawFile.mk (jstr "A.XLSX") (none : Option (Workbook Nat))]).files = [] ∧
      stripExt (jstr "A.XLSX") = jstr "A" ∧
      ∀ (σ : Type) (st : AppState σ) (sel : List (RawFile σ)) (f : UploadedFile σ),
        f ∈ (handleFileSelect st sel).files →
        f ∈ st.files ∨
          (jsEndsWith f.name (jstr ".xlsx") || jsEndsWith f.name (jstr ".xls")) = true := by
  refine ⟨by decide, by decide, ?_⟩
  intro σ st sel f hf
  rw [show (handleFileSelect st sel).files = st.files ++ _ from rfl,
    List.mem_append] at hf
  rcases hf with hf | hf
  · exact Or.inl hf
  · right
    rw [List.mem_map] at hf
    obtain ⟨g, hgmem, rfl⟩ := hf
    rw [List.mem_filter] at hgmem
    exact hgmem.2

/-- Witness for C10's universal part at a concrete kept file. -/
theorem c10_witness :
    (UploadedFile.mk (jstr "c.xlsx") (none : Option (Workbook Nat)) (jstr "c") ∈
        (handleFileSelect (AppState.mk [] false)
          [RawFile.mk (jstr "c.xlsx") none]).files) ∧
      (UploadedFile.mk (jstr "c.xlsx") (none : Option (Workbook Nat)) (jstr "c") ∈
          (AppState.mk ([] : List (UploadedFile Nat)) false).files ∨
        (jsEndsWith (jstr "c.xlsx") (jstr ".xlsx") ||
          jsEndsWith (jstr "c.xlsx") (jstr ".xls")) = true) :=
  ⟨by decide, c10_case_sensitivity.2.2 Nat (AppState.mk [] false)
    [RawFile.mk (jstr "c.xlsx") none] _ (by decide)⟩

end ExcelMerger
